import Mathlib

/-!
Verification of the tree-structured task execution engine (saga-style
compensation) of the `task` package.

The embedding models the canonical sequential implementation
(`src/unnamed/part_000`):

* `Task` (struct with `ID`, `Run`, `Revert`, `Subtasks`) becomes `Async.GTask`.
  A task's `Run`/`Revert` functions in Go take the task's own context plus the
  accumulated values; since a task's bound context is fixed once the tree is
  built, a closure over the values list is fully general for a fixed tree, so
  the embedded functions have type `List α → Except String α`.
* `Run(tasks, values...)` (part_000 lines 221-247) becomes `Async.RunGo`; it
  records, besides the returned `([]interface{}, error)` pair, the trace of
  run invocations and of revert invocations (the only side effects the Go
  code performs through the user-supplied closures).
* `Revert(tasks, values...)` (part_000 lines 138-152) becomes
  `Async.revertGo`, returning the trace of revert invocations; the Go
  function returns nothing (revert errors hit a literal TODO and are
  dropped), which the embedding mirrors by exposing no error channel.
* the context chain (`New`, `AddSubtasks`, `DecodeCtx`, part_000 lines
  65-131) is embedded as an arena of task records addressed by allocation
  index, with Go `context.Context` value chains as an explicit inductive.
* the identity allocator (`counter.Load()` / `counter.Add(1)` in `New`,
  part_000 lines 76-95) is embedded as an explicit interleaving machine in
  which every construction performs its load step and its increment step as
  two separate atomic actions, exactly as the Go code does.
-/

namespace Async

/-- Embedding of the Go `Task` struct: identifier, run function, optional
revert function, and the ordered list of subtasks. -/
inductive GTask (α : Type) : Type where
  | mk (id : String) (run : List α → Except String α)
       (revert : Option (List α → Except String α))
       (subtasks : List (GTask α))

/-- The task's `ID` field. -/
def GTask.id {α : Type} : GTask α → String
  | .mk i _ _ _ => i

/-- The task's `Run` function. -/
def GTask.runF {α : Type} : GTask α → (List α → Except String α)
  | .mk _ r _ _ => r

/-- The task's optional `Revert` function. -/
def GTask.revertF {α : Type} : GTask α → Option (List α → Except String α)
  | .mk _ _ rv _ => rv

/-- The task's `Subtasks` list. -/
def GTask.subtasks {α : Type} : GTask α → List (GTask α)
  | .mk _ _ _ s => s

/-- Number of tasks in a forest (each node counted once). -/
def sizeL {α : Type} : List (GTask α) → Nat
  | [] => 0
  | .mk _ _ _ subs :: ts => 1 + sizeL subs + sizeL ts

theorem sizeL_cons {α : Type} (t : GTask α) (ts : List (GTask α)) :
    sizeL (t :: ts) = 1 + sizeL t.subtasks + sizeL ts := by
  cases t with
  | mk i r rv s => simp [sizeL, GTask.subtasks]

theorem sizeL_append {α : Type} (a b : List (GTask α)) :
    sizeL (a ++ b) = sizeL a + sizeL b := by
  induction a with
  | nil => simp [sizeL]
  | cons t ts ih =>
      cases t with
      | mk i r rv s =>
          simp only [List.cons_append, sizeL, ih]
          omega

/-- Record of one invocation of a task's revert function: the task's
identifier, the values it was handed, and what the revert function returned. -/
instance {ε β : Type} [DecidableEq ε] [DecidableEq β] : DecidableEq (Except ε β)
  | .ok a, .ok b => decidable_of_iff (a = b) (by simp)
  | .ok _, .error _ => isFalse (by intro h; cases h)
  | .error _, .ok _ => isFalse (by intro h; cases h)
  | .error a, .error b => decidable_of_iff (a = b) (by simp)

structure RCall (α : Type) where
  taskId : String
  args : List α
  out : Except String α

instance {α : Type} [DecidableEq α] : DecidableEq (RCall α)
  | ⟨i1, a1, o1⟩, ⟨i2, a2, o2⟩ =>
    decidable_of_iff (i1 = i2 ∧ a1 = a2 ∧ o1 = o2) (by rw [RCall.mk.injEq])

/-- Observable behaviour of one call of the Go function
`Run(tasks, values...)`: the returned `([]interface{}, error)` pair (as an
`Except`), the trace of run invocations (task id and the values passed), and
the trace of revert invocations performed by the compensation pass. -/
structure RunOut (α : Type) where
  outcome : Except String (List α)
  runCalls : List (String × List α)
  revertCalls : List (RCall α)

instance {α : Type} [DecidableEq α] : DecidableEq (RunOut α)
  | ⟨o1, rc1, rv1⟩, ⟨o2, rc2, rv2⟩ =>
    decidable_of_iff (o1 = o2 ∧ rc1 = rc2 ∧ rv1 = rv2) (by rw [RunOut.mk.injEq])

/-- Embedding of `Revert(tasks, values...)` from part_000 (lines 138-152):
a FIFO queue loop that dequeues a task, invokes its revert function if
present (the returned error hits a TODO and is discarded), and enqueues all
of the task's subtasks at the back.  The Go function returns nothing; its
observable behaviour is the list of revert invocations, in order. -/
def revertGo {α : Type} : List (GTask α) → List α → List (RCall α)
  | [], _ => []
  | t :: rest, vs =>
      match t.revertF with
      | none => revertGo (rest ++ t.subtasks) vs
      | some f => ⟨t.id, vs, f vs⟩ :: revertGo (rest ++ t.subtasks) vs
termination_by q _ => sizeL q
decreasing_by
  all_goals simp [sizeL_append, sizeL_cons]; omega

/-- Embedding of the loop of `Run(tasks, values...)` from part_000 (lines
221-247).  Arguments mirror the Go local state: the task queue, the growing
`values` list, the growing `result` list, the `successfulTasks` list (to
which each succeeding task is prepended), plus the trace of run invocations.
On a run error the code calls `Revert(successfulTasks, values...)` with the
values accumulated so far and returns `(nil, err)`. -/
def runGoAux {α : Type} :
    List (GTask α) → List α → List α → List (GTask α) →
    List (String × List α) → RunOut α
  | [], _, res, _, rc => ⟨.ok res, rc, []⟩
  | t :: rest, vs, res, succ, rc =>
      match t.runF vs with
      | .error e => ⟨.error e, rc ++ [(t.id, vs)], revertGo succ vs⟩
      | .ok v =>
          runGoAux (rest ++ t.subtasks) (vs ++ [v]) (res ++ [v]) (t :: succ)
            (rc ++ [(t.id, vs)])
termination_by q _ _ _ _ => sizeL q
decreasing_by
  all_goals simp [sizeL_append, sizeL_cons]; omega

/-- Embedding of the Go function `Run(tasks, values...)` of part_000. -/
def RunGo {α : Type} (tasks : List (GTask α)) (values : List α) : RunOut α :=
  runGoAux tasks values [] [] []

/-- All immediate subtasks of the tasks of a forest, in order. -/
def subForest {α : Type} : List (GTask α) → List (GTask α)
  | [] => []
  | t :: ts => t.subtasks ++ subForest ts

theorem sizeL_subForest {α : Type} (q : List (GTask α)) :
    sizeL (subForest q) + q.length = sizeL q := by
  induction q with
  | nil => simp [subForest, sizeL]
  | cons t ts ih =>
      cases t with
      | mk i r rv s =>
          simp only [subForest, sizeL, sizeL_append, GTask.subtasks,
            List.length_cons] at *
          omega

theorem subForest_append {α : Type} (a b : List (GTask α)) :
    subForest (a ++ b) = subForest a ++ subForest b := by
  induction a with
  | nil => simp [subForest]
  | cons t ts ih => simp [subForest, ih]

/-- The order in which the queue loop of part_000 dequeues the tasks of a
forest: pop the front task, push its subtasks at the back. -/
def queueOrder {α : Type} : List (GTask α) → List (GTask α)
  | [] => []
  | t :: rest => t :: queueOrder (rest ++ t.subtasks)
termination_by q => sizeL q
decreasing_by
  simp [sizeL_append, sizeL_cons]; omega

/-- Breadth-first (level) order of a forest, defined level by level: the
whole current level first, then, recursively, the level of all their
children.  This is the documented deterministic order the amended claim C1
refers to; it is defined independently of the queue loop. -/
def levelOrder {α : Type} : List (GTask α) → List (GTask α)
  | [] => []
  | t :: ts => (t :: ts) ++ levelOrder (subForest (t :: ts))
termination_by q => sizeL q
decreasing_by
  have h := sizeL_subForest (t :: ts)
  simp at h ⊢
  omega

/-- Sequential execution of a flat list of tasks: each task's run function
receives the initial values followed by every value produced by the tasks
executed before it; the first failure aborts with that error; on success the
list of produced values is returned, one per task, in execution order. -/
def seqRun {α : Type} : List (GTask α) → List α → Except String (List α)
  | [], _ => .ok []
  | t :: ts, vs =>
      match t.runF vs with
      | .error e => .error e
      | .ok v => (seqRun ts (vs ++ [v])).map (fun rs => v :: rs)

theorem seqRun_length {α : Type} (ts : List (GTask α)) (vs : List α)
    (rs : List α) (h : seqRun ts vs = .ok rs) : rs.length = ts.length := by
  induction ts generalizing vs rs with
  | nil => simp [seqRun] at h; simp [← h]
  | cons t ts ih =>
      simp only [seqRun] at h
      split at h
      · exact absurd h (by simp)
      · rename_i v hr
        cases hs : seqRun ts (vs ++ [v]) with
        | error e => rw [hs] at h; exact absurd h (by simp [Except.map])
        | ok rs0 =>
            rw [hs] at h
            simp only [Except.map, Except.ok.injEq] at h
            subst h
            simp [ih (vs ++ [v]) rs0 hs]

theorem queueOrder_nil {α : Type} : queueOrder ([] : List (GTask α)) = [] := by
  simp [queueOrder]

theorem queueOrder_cons {α : Type} (t : GTask α) (rest : List (GTask α)) :
    queueOrder (t :: rest) = t :: queueOrder (rest ++ t.subtasks) := by
  simp [queueOrder]

theorem queueOrder_split {α : Type} (a : List (GTask α)) :
    ∀ b : List (GTask α), queueOrder (a ++ b) = a ++ queueOrder (b ++ subForest a) := by
  induction a with
  | nil => intro b; simp [subForest]
  | cons t r ih =>
      intro b
      rw [List.cons_append, queueOrder_cons]
      have : r ++ b ++ t.subtasks = r ++ (b ++ t.subtasks) := by simp
      rw [this, ih (b ++ t.subtasks)]
      simp [subForest]

theorem sizeL_eq_zero {α : Type} (q : List (GTask α)) (h : sizeL q = 0) :
    q = [] := by
  cases q with
  | nil => rfl
  | cons t ts => rw [sizeL_cons] at h; omega

theorem queueOrder_eq_levelOrder_aux {α : Type} (n : Nat) :
    ∀ q : List (GTask α), sizeL q ≤ n → queueOrder q = levelOrder q := by
  induction n with
  | zero =>
      intro q hq
      rw [sizeL_eq_zero q (Nat.le_zero.mp hq)]
      simp [queueOrder, levelOrder]
  | succ n ih =>
      intro q hq
      cases q with
      | nil => simp [queueOrder, levelOrder]
      | cons t ts =>
          have h1 : queueOrder (t :: ts) = (t :: ts) ++ queueOrder (subForest (t :: ts)) := by
            have := queueOrder_split (t :: ts) []
            simpa using this
          rw [h1, levelOrder]
          have hsz := sizeL_subForest (t :: ts)
          have : sizeL (subForest (t :: ts)) ≤ n := by
            simp at hsz
            omega
          rw [ih _ this]

theorem queueOrder_eq_levelOrder {α : Type} (q : List (GTask α)) :
    queueOrder q = levelOrder q :=
  queueOrder_eq_levelOrder_aux (sizeL q) q (Nat.le_refl _)

theorem levelOrder_length {α : Type} (q : List (GTask α)) :
    (levelOrder q).length = sizeL q := by
  have h : ∀ n : Nat, ∀ q : List (GTask α), sizeL q ≤ n →
      (levelOrder q).length = sizeL q := by
    intro n
    induction n with
    | zero =>
        intro q hq
        rw [sizeL_eq_zero q (Nat.le_zero.mp hq)]
        simp [levelOrder, sizeL]
    | succ n ih =>
        intro q hq
        cases q with
        | nil => simp [levelOrder, sizeL]
        | cons t ts =>
            rw [levelOrder]
            have hsz := sizeL_subForest (t :: ts)
            have hle : sizeL (subForest (t :: ts)) ≤ n := by
              simp at hsz; omega
            simp only [List.length_append, ih _ hle]
            simp at hsz ⊢
            omega
  exact h (sizeL q) q (Nat.le_refl _)

theorem runGoAux_outcome_aux {α : Type} (n : Nat) :
    ∀ q : List (GTask α), sizeL q ≤ n → ∀ (vs res : List α)
      (succ : List (GTask α)) (rc : List (String × List α)),
      (runGoAux q vs res succ rc).outcome =
        (seqRun (queueOrder q) vs).map (fun rs => res ++ rs) := by
  induction n with
  | zero =>
      intro q hq vs res succ rc
      rw [sizeL_eq_zero q (Nat.le_zero.mp hq)]
      simp [runGoAux, queueOrder, seqRun, Except.map]
  | succ n ih =>
      intro q hq vs res succ rc
      cases q with
      | nil => simp [runGoAux, queueOrder, seqRun, Except.map]
      | cons t rest =>
          rw [queueOrder_cons]
          simp only [runGoAux, seqRun]
          cases hr : t.runF vs with
          | error e => simp [hr, Except.map]
          | ok v =>
              simp only [hr]
              have hle : sizeL (rest ++ t.subtasks) ≤ n := by
                rw [sizeL_append]
                rw [sizeL_cons] at hq
                omega
              rw [ih _ hle]
              cases hs : seqRun (queueOrder (rest ++ t.subtasks)) (vs ++ [v]) <;>
                simp [hs, Except.map]

theorem RunGo_outcome {α : Type} (tasks : List (GTask α)) (values : List α) :
    (RunGo tasks values).outcome = seqRun (levelOrder tasks) values := by
  rw [RunGo, runGoAux_outcome_aux (sizeL tasks) tasks (Nat.le_refl _),
    queueOrder_eq_levelOrder]
  cases seqRun (levelOrder tasks) values <;> simp [Except.map]

theorem revertGo_filterMap_aux {α : Type} (n : Nat) :
    ∀ q : List (GTask α), sizeL q ≤ n → ∀ vs : List α,
      revertGo q vs = (queueOrder q).filterMap
        (fun t => t.revertF.map (fun f => ⟨t.id, vs, f vs⟩)) := by
  induction n with
  | zero =>
      intro q hq vs
      rw [sizeL_eq_zero q (Nat.le_zero.mp hq)]
      simp [revertGo, queueOrder]
  | succ n ih =>
      intro q hq vs
      cases q with
      | nil => simp [revertGo, queueOrder]
      | cons t rest =>
          rw [queueOrder_cons]
          simp only [revertGo, List.filterMap_cons]
          have hle : sizeL (rest ++ t.subtasks) ≤ n := by
            rw [sizeL_append]
            rw [sizeL_cons] at hq
            omega
          cases hr : t.revertF with
          | none => simp [hr, ih _ hle]
          | some f => simp [hr, ih _ hle, Option.map]

/-- What the part_000 compensation pass observably does, stated
independently of the queue loop: it visits every task of the forest in
breadth-first level order (all of each task's children, whether or not they
ever ran or succeeded), invokes the revert function of exactly those visited
tasks that carry one, hands every invocation the same values list, and never
stops early, neither at a task without a revert function nor at a revert
function that returns an error (whose result merely stays in the trace). -/
def revertSpec {α : Type} (tasks : List (GTask α)) (values : List α) :
    List (RCall α) :=
  (levelOrder tasks).filterMap
    (fun t => t.revertF.map (fun f => ⟨t.id, values, f values⟩))

theorem revertGo_eq_revertSpec {α : Type} (tasks : List (GTask α))
    (values : List α) : revertGo tasks values = revertSpec tasks values := by
  rw [revertGo_filterMap_aux (sizeL tasks) tasks (Nat.le_refl _),
    queueOrder_eq_levelOrder, revertSpec]

/-- Modelled from the words of claim C1 (and spec section 4.4, item 5), for
comparison with what the code does: one value per task, with each task's own
value immediately followed by the flattened results of its children in
attachment order, i.e. pre-order by structure.  Values accumulate in the
same pre-order. -/
def preOrderRun {α : Type} : List (GTask α) → List α → Except String (List α)
  | [], _ => .ok []
  | t :: ts, vs =>
      match t.runF vs with
      | .error e => .error e
      | .ok v =>
          match preOrderRun t.subtasks (vs ++ [v]) with
          | .error e => .error e
          | .ok cs =>
              (preOrderRun ts (vs ++ [v] ++ cs)).map (fun rs => v :: (cs ++ rs))
termination_by q _ => sizeL q
decreasing_by
  all_goals simp [sizeL_cons]
  all_goals omega

/-- Concrete tree used to separate breadth-first order from pre-order:
two roots A and B, where A has one child C.  All runs succeed with constant
values 1 (A), 2 (B), 3 (C). -/
def cxC : GTask Int := .mk "C" (fun _ => .ok 3) none []

def cxA : GTask Int := .mk "A" (fun _ => .ok 1) none [cxC]

def cxB : GTask Int := .mk "B" (fun _ => .ok 2) none []

/-- Claim C1, as stated, is false: part_000's `Run` dequeues tasks from a
FIFO queue and appends subtasks at the back, so results come out in
breadth-first level order, not pre-order.  For roots `[A, B]` with A's child
C, the code returns `[1, 2, 3]` (A, B, C), while the claim's pre-order rule
demands `[1, 3, 2]` (A, then A's child C, then B). -/
theorem C1_counterexample :
    (RunGo [cxA, cxB] ([] : List Int)).outcome = .ok [1, 2, 3] ∧
    preOrderRun [cxA, cxB] ([] : List Int) = .ok [1, 3, 2] ∧
    ([1, 2, 3] : List Int) ≠ [1, 3, 2] := by
  refine ⟨?_, ?_, by decide⟩
  · simp [RunGo, runGoAux, cxA, cxB, cxC, GTask.runF, GTask.subtasks, GTask.id,
      GTask.revertF]
  · simp [preOrderRun, cxA, cxB, cxC, GTask.runF, GTask.subtasks, Except.map]

/-- Claim C1 (amended): for every tree of tasks, `Run(tasks, initialValues)`
behaves as the sequential execution of the breadth-first (level-order)
linearization of the forest: it returns exactly one produced value per task
in the tree, ordered breadth-first by structure (all roots in the given
order, then all their children in attachment order, and so on), where each
task's run function receives the initial values followed by the values of
every task executed before it; the order is a function of the structure
alone (the implementation is sequential, so it is independent of any
completion timing), but it is level order, not the pre-order the claim as
written demands. -/
theorem C1_run_breadth_first_order {α : Type} (tasks : List (GTask α))
    (values : List α) :
    (RunGo tasks values).outcome = seqRun (levelOrder tasks) values ∧
    (levelOrder tasks).length = sizeL tasks ∧
    (∀ rs : List α, (RunGo tasks values).outcome = .ok rs →
      rs.length = sizeL tasks) := by
  refine ⟨RunGo_outcome tasks values, levelOrder_length tasks, ?_⟩
  intro rs h
  rw [RunGo_outcome] at h
  have hl := seqRun_length _ _ _ h
  rw [levelOrder_length] at hl
  exact hl

/-- Witness for C1: the amended theorem applied to the concrete two-root
tree, discharging the hypothesis of its third conjunct at the concrete
result list [1, 2, 3]. -/
theorem C1_run_breadth_first_order_witness :
    ([1, 2, 3] : List Int).length = sizeL [cxA, cxB] :=
  (C1_run_breadth_first_order [cxA, cxB] []).2.2 [1, 2, 3]
    (by simp [RunGo, runGoAux, cxA, cxB, cxC, GTask.runF, GTask.subtasks,
      GTask.id, GTask.revertF])

/-- The three-task chain of claim C7: A returns 1, its subtask B returns the
last accumulated value plus 2, B's subtask C returns the last accumulated
value plus 3. -/
def c7C : GTask Int := .mk "C" (fun vs => .ok ((vs.getLast?).getD 0 + 3)) none []

def c7B : GTask Int :=
  .mk "B" (fun vs => .ok ((vs.getLast?).getD 0 + 2)) none [c7C]

def c7A : GTask Int := .mk "A" (fun _ => .ok 1) none [c7B]

/-- Claim C7: running the chain [A] with no initial values returns the
result sequence [1, 3, 6], whose sum is 10, a nil error, and triggers no
compensation. -/
theorem C7_simple_task_chain :
    (RunGo [c7A] ([] : List Int)).outcome = .ok [1, 3, 6] ∧
    ([1, 3, 6] : List Int).sum = 10 ∧
    (RunGo [c7A] ([] : List Int)).revertCalls = [] := by
  refine ⟨?_, by decide, ?_⟩
  · simp [RunGo, runGoAux, c7A, c7B, c7C, GTask.runF, GTask.subtasks,
      GTask.id, GTask.revertF]
  · simp [RunGo, runGoAux, c7A, c7B, c7C, GTask.runF, GTask.subtasks,
      GTask.id, GTask.revertF]

/-- Claim C9: for every sequence of initial values, running an empty task
sequence succeeds with an empty result sequence and a nil error, invoking no
run function and no revert function. -/
theorem C9_empty_task_list {α : Type} (values : List α) :
    RunGo ([] : List (GTask α)) values = ⟨.ok [], [], []⟩ := by
  simp [RunGo, runGoAux]

/-- Three-task chain in which A and B succeed (values 1 and 2) and C fails;
every task carries a revert function. -/
def e2C : GTask Int :=
  .mk "C" (fun _ => .error "boom") (some (fun _ => .ok 0)) []

def e2B : GTask Int := .mk "B" (fun _ => .ok 2) (some (fun _ => .ok 0)) [e2C]

def e2A : GTask Int := .mk "A" (fun _ => .ok 1) (some (fun _ => .ok 0)) [e2B]

/-- Claim C2 evaluated at the failing input: for the chain A -> B -> C where
A and B succeed and C fails, `Run` does return a non-nil error and no
results, but the compensation pass is handed `successfulTasks = [B, A]` and
then re-enqueues every visited task's subtasks, so the revert invocations
are B, A, C, B, C: the succeeded task B is reverted twice, and the failed
task C (which never reached Succeeded) is reverted twice as well.  This
contradicts both the claim and the code's own documentation of `Run`
("revert the changes made by the tasks that have already succeeded"). -/
theorem C2_overcompensation_trace :
    (RunGo [e2A] ([] : List Int)).outcome = .error "boom" ∧
    ((RunGo [e2A] ([] : List Int)).revertCalls).map RCall.taskId =
      ["B", "A", "C", "B", "C"] := by
  constructor <;>
    simp [RunGo, runGoAux, revertGo, e2A, e2B, e2C, GTask.runF,
      GTask.subtasks, GTask.id, GTask.revertF]

/-- Tree in which A succeeds producing 1 and its child B fails; A has a
revert function. -/
def e3B : GTask Int := .mk "B" (fun _ => .error "fail") none []

def e3A : GTask Int := .mk "A" (fun _ => .ok 1) (some (fun _ => .ok 0)) [e3B]

/-- Claim C3 evaluated at the failing input: `Run([A], )` (no initial
values) fails in A's child B after A produced 1; the code then calls
`Revert(successfulTasks, values...)` with the values accumulated so far, so
A's revert receives [1] rather than the original empty initialValues.  This
contradicts the claim and the code's own documentation ("The original input
values are passed to the Revert methods"). -/
theorem C3_revert_gets_accumulated_values :
    (RunGo [e3A] ([] : List Int)).revertCalls =
      [⟨"A", [1], .ok 0⟩] ∧ ([1] : List Int) ≠ [] := by
  refine ⟨?_, by decide⟩
  simp [RunGo, runGoAux, revertGo, e3A, e3B, GTask.runF, GTask.subtasks,
    GTask.id, GTask.revertF]

/-- Task T whose revert fails with "boom", with a child U whose revert
succeeds. -/
def e4U : GTask Int := .mk "U" (fun _ => .ok 0) (some (fun _ => .ok 7)) []

def e4T : GTask Int :=
  .mk "T" (fun _ => .ok 0) (some (fun _ => .error "boom")) [e4U]

/-- Claim C4 evaluated at the failing input: during the compensation pass
over [T], T's revert function fails with "boom" (the error is visible in
the invocation trace) and the pass continues to U, but the Go `Revert`
function has no return values at all — the error sits behind a literal
`// TODO` in the source and never reaches any caller, so no aggregate error
is returned, contradicting the claim.  The embedding mirrors the Go
signature: the value of `revertGo` is only the invocation trace; there is no
error channel. -/
theorem C4_revert_errors_not_returned :
    revertGo [e4T] ([] : List Int) =
      [⟨"T", [], .error "boom"⟩, ⟨"U", [], .ok 7⟩] := by
  simp [revertGo, e4T, e4U, GTask.runF, GTask.subtasks, GTask.id,
    GTask.revertF]

/-- Tree in which A succeeds producing 1 and its child B fails; both carry
revert functions. -/
def e8B : GTask Int := .mk "B" (fun _ => .error "boom") (some (fun _ => .ok 0)) []

def e8A : GTask Int := .mk "A" (fun _ => .ok 1) (some (fun _ => .ok 0)) [e8B]

/-- Claim C8, as stated, is false: the compensation pass does not restrict
its recursion to children that reached Succeeded.  Here `Run([A])` fails in
A's child B (B's run on the values it receives returns an error, so B never
succeeded), yet the unwind invokes B's revert function right after A's. -/
theorem C8_counterexample :
    ((RunGo [e8A] ([] : List Int)).revertCalls).map RCall.taskId =
      ["A", "B"] ∧
    e8B.runF [1] = .error "boom" := by
  constructor <;>
    simp [RunGo, runGoAux, revertGo, e8A, e8B, GTask.runF, GTask.subtasks,
      GTask.id, GTask.revertF]

/-- Claim C8 (amended): for every list of tasks handed to the compensation
pass and every values list, the pass visits every task of the forest in
breadth-first level order — recursing into all of each visited task's
children, whether or not they ever succeeded — and invokes the revert
function of exactly those visited tasks that carry one, handing every
invocation the same values list; a task without a revert function is
skipped without aborting the rest of the pass, and a failing revert
function leaves its error in the trace without stopping the pass. -/
theorem C8_revert_visits_all_descendants {α : Type}
    (tasks : List (GTask α)) (values : List α) :
    revertGo tasks values = revertSpec tasks values :=
  revertGo_eq_revertSpec tasks values

/-- Embedding of the Go `TaskContext` struct.  Task pointers become arena
indices (allocation order), so `task` is the index of the owning task and
`parent` the index of the attaching parent, if any. -/
structure TaskContext where
  parent : Option Nat
  task : Nat
deriving DecidableEq

/-- Embedding of Go `context.Context` as far as this package uses it: a
chain of `context.WithValue` layers over some background context.  The
package only ever stores `*TaskContext` values (under the key "ctx"), so
the value type is fixed to `TaskContext`. -/
inductive GoContext : Type where
  | background
  | withValue (parent : GoContext) (key : String) (val : TaskContext)
deriving DecidableEq

/-- Go `ctx.Value(key)`: the innermost (most recently wrapped) binding of
the key wins; `background` holds no bindings. -/
def GoContext.value : GoContext → String → Option TaskContext
  | .background, _ => none
  | .withValue p k v, key => if key = k then some v else p.value key

/-- Embedding of `DecodeCtx` (part_000 lines 65-71): look up the value
bound under `CtxKey("ctx")`; if the lookup (type assertion) fails, return
the error "no context found". -/
def DecodeCtx (ctx : GoContext) : Except String TaskContext :=
  match ctx.value "ctx" with
  | some tc => .ok tc
  | none => .error "no context found"

/-- One task record of the builder arena: its bound context and the indices
of its subtasks. -/
structure BTask where
  ctx : GoContext
  subtasks : List Nat

instance : Inhabited BTask := ⟨⟨.background, []⟩⟩

/-- State of the tree builder: the arena of tasks created so far, in
allocation order. -/
structure BState where
  tasks : List BTask

/-- A builder call: `New(ambient, ...)` (the configuration options do not
touch the context chain) or `t.AddSubtasks(children...)` with tasks named
by arena index. -/
inductive BOp : Type where
  | newTask (ambient : GoContext)
  | addSubtasks (parent : Nat) (children : List Nat)
deriving DecidableEq

/-- The context of arena entry `i` (background for an out-of-range index,
which well-formed scripts never produce). -/
def ctxAt (ts : List BTask) (i : Nat) : GoContext :=
  (ts[i]?.getD default).ctx

/-- One loop iteration of `AddSubtasks` (part_000 lines 123-131): the
child's context is rebound to `context.WithValue(t.Context,
CtxKey("ctx"), &TaskContext{Task: subtask, Parent: t})`, reading the
parent's context at that moment. -/
def attachOne (ts : List BTask) (p c : Nat) : List BTask :=
  ts.set c { ts[c]?.getD default with
    ctx := .withValue (ctxAt ts p) "ctx" ⟨some p, c⟩ }

/-- The loop of `AddSubtasks` over the given children, left to right. -/
def attachAll (ts : List BTask) (p : Nat) : List Nat → List BTask
  | [] => ts
  | c :: cs => attachAll (attachOne ts p c) p cs

/-- Embedding of one builder call.  `New` (part_000 lines 76-95) binds the
fresh task's own entry (no parent) over the supplied ambient context and
appends the task to the arena; `AddSubtasks` rebinds each child's context
and then appends the children to the parent's subtask list. -/
def applyOp (s : BState) : BOp → BState
  | .newTask amb =>
      ⟨s.tasks ++ [⟨.withValue amb "ctx" ⟨none, s.tasks.length⟩, []⟩]⟩
  | .addSubtasks p cs =>
      let ts := attachAll s.tasks p cs
      ⟨ts.set p { ts[p]?.getD default with
        subtasks := (ts[p]?.getD default).subtasks ++ cs }⟩

/-- Run a builder script from a given state. -/
def interp (s : BState) : List BOp → BState
  | [] => s
  | op :: ops => interp (applyOp s op) ops

/-- Well-formedness of a builder script given the current arena size: every
task index mentioned refers to an already created task (in Go these are
simply live pointers). -/
def wfOps : Nat → List BOp → Bool
  | _, [] => true
  | n, .newTask _ :: ops => wfOps (n + 1) ops
  | n, .addSubtasks p cs :: ops =>
      decide (p < n) && cs.all (fun c => decide (c < n)) && wfOps n ops

/-- The attaching parent of task `i` after running a script: `none` until
some `addSubtasks` lists `i` as a child, thereafter the most recent
attacher; a fresh task always restarts at `none`. -/
def ghostUpd (n : Nat) (pm : Nat → Option Nat) : List BOp → Nat → Option Nat
  | [] => pm
  | .newTask _ :: ops =>
      ghostUpd (n + 1) (fun i => if i = n then none else pm i) ops
  | .addSubtasks p cs :: ops =>
      ghostUpd n (fun i => if i ∈ cs then some p else pm i) ops

theorem getD_set_self {β : Type} [Inhabited β] (l : List β) (i : Nat)
    (x : β) (h : i < l.length) : (l.set i x)[i]?.getD default = x := by
  rw [List.getElem?_set_eq_of_lt x h]
  rfl

theorem getD_set_ne {β : Type} [Inhabited β] (l : List β) (i j : Nat)
    (x : β) (h : i ≠ j) : (l.set i x)[j]?.getD default = l[j]?.getD default := by
  rw [List.getElem?_set_ne h]

theorem ctxAt_set_subtasks (ts : List BTask) (p : Nat) (r : List Nat)
    (i : Nat) :
    ctxAt (ts.set p { ts[p]?.getD default with subtasks := r }) i = ctxAt ts i := by
  by_cases h : p = i
  · subst h
    by_cases hp : p < ts.length
    · simp only [ctxAt, getD_set_self _ _ _ hp]
    · simp only [ctxAt, List.set_eq_of_length_le (Nat.le_of_not_lt hp)]
  · simp only [ctxAt, getD_set_ne _ _ _ _ h]

theorem attachAll_length (ts : List BTask) (p : Nat) (cs : List Nat) :
    (attachAll ts p cs).length = ts.length := by
  induction cs generalizing ts with
  | nil => simp [attachAll]
  | cons c cs ih => simp [attachAll, ih, attachOne]

theorem attachAll_decode (cs : List Nat) :
    ∀ (ts : List BTask) (p : Nat) (pm : Nat → Option Nat),
      (∀ c ∈ cs, c < ts.length) →
      (∀ i, i < ts.length → DecodeCtx (ctxAt ts i) = .ok ⟨pm i, i⟩) →
      ∀ i, i < ts.length →
        DecodeCtx (ctxAt (attachAll ts p cs) i) =
          .ok ⟨if i ∈ cs then some p else pm i, i⟩ := by
  induction cs with
  | nil =>
      intro ts p pm _ hinv i hi
      simp [attachAll, hinv i hi]
  | cons c cs ih =>
      intro ts p pm hcs hinv i hi
      have hc : c < ts.length := hcs c (by simp)
      have hlen : (attachOne ts p c).length = ts.length := by
        simp [attachOne]
      have hinv1 : ∀ j, j < (attachOne ts p c).length →
          DecodeCtx (ctxAt (attachOne ts p c) j) =
            .ok ⟨(fun k => if k = c then some p else pm k) j, j⟩ := by
        intro j hj
        rw [hlen] at hj
        by_cases hjc : j = c
        · subst hjc
          simp only [attachOne, ctxAt, getD_set_self ts j _ hc]
          simp [DecodeCtx, GoContext.value]
        · have : ctxAt (attachOne ts p c) j = ctxAt ts j := by
            simp [attachOne, ctxAt, getD_set_ne ts c j _ (fun h => hjc h.symm)]
          rw [this]
          simp [hinv j hj, hjc]
      have hcs1 : ∀ d ∈ cs, d < (attachOne ts p c).length := by
        intro d hd
        rw [hlen]
        exact hcs d (by simp [hd])
      have := ih (attachOne ts p c) p
        (fun k => if k = c then some p else pm k) hcs1 hinv1 i (by omega)
      rw [attachAll, this]
      by_cases h1 : i ∈ cs
      · simp [h1]
      · by_cases h2 : i = c <;> simp [h1, h2]

theorem getD_append_left {β : Type} [Inhabited β] (a b : List β) (i : Nat)
    (h : i < a.length) : (a ++ b)[i]?.getD default = a[i]?.getD default := by
  rw [List.getElem?_append_left h]

theorem getD_append_self {β : Type} [Inhabited β] (a : List β) (x : β) :
    (a ++ [x])[a.length]?.getD default = x := by
  rw [List.getElem?_append_right (Nat.le_refl _)]
  simp

theorem interp_decode (ops : List BOp) :
    ∀ (s : BState) (pm : Nat → Option Nat),
      wfOps s.tasks.length ops = true →
      (∀ i, i < s.tasks.length → DecodeCtx (ctxAt s.tasks i) = .ok ⟨pm i, i⟩) →
      ∀ i, i < (interp s ops).tasks.length →
        DecodeCtx (ctxAt (interp s ops).tasks i) =
          .ok ⟨ghostUpd s.tasks.length pm ops i, i⟩ := by
  induction ops with
  | nil =>
      intro s pm _ hinv i hi
      simp only [interp, ghostUpd]
      exact hinv i hi
  | cons op ops ih =>
      intro s pm hwf hinv i hi
      cases op with
      | newTask amb =>
          simp only [interp, applyOp] at hi ⊢
          simp only [wfOps] at hwf
          simp only [ghostUpd]
          have hlen : (BState.mk (s.tasks ++
              [⟨.withValue amb "ctx" ⟨none, s.tasks.length⟩, []⟩])).tasks.length =
              s.tasks.length + 1 := by simp
          have hinv1 : ∀ j, j < s.tasks.length + 1 →
              DecodeCtx (ctxAt (s.tasks ++
                [⟨.withValue amb "ctx" ⟨none, s.tasks.length⟩, []⟩]) j) =
              .ok ⟨(fun k => if k = s.tasks.length then none else pm k) j, j⟩ := by
            intro j hj
            by_cases hje : j = s.tasks.length
            · subst hje
              simp only [ctxAt, getD_append_self]
              simp [DecodeCtx, GoContext.value]
            · have hjl : j < s.tasks.length := by omega
              simp only [ctxAt, getD_append_left _ _ _ hjl]
              simp only [ctxAt] at hinv
              simp [hinv j hjl, hje]
          have := ih ⟨s.tasks ++ [⟨.withValue amb "ctx" ⟨none, s.tasks.length⟩, []⟩]⟩
            (fun k => if k = s.tasks.length then none else pm k)
            (by simpa using hwf) (by simpa using hinv1) i hi
          simpa using this
      | addSubtasks p cs =>
          simp only [interp, applyOp] at hi ⊢
          simp only [wfOps, Bool.and_eq_true, decide_eq_true_eq,
            List.all_eq_true] at hwf
          obtain ⟨⟨hp, hcs⟩, hwf⟩ := hwf
          simp only [ghostUpd]
          have hcs' : ∀ c ∈ cs, c < s.tasks.length := by
            intro c hc
            simpa using hcs c hc
          have hinvA := attachAll_decode cs s.tasks p pm hcs' hinv
          set ts1 := attachAll s.tasks p cs with hts1
          have hlen1 : ts1.length = s.tasks.length := attachAll_length _ _ _
          have hinv2 : ∀ j, j <
              (ts1.set p { ts1[p]?.getD default with
                subtasks := (ts1[p]?.getD default).subtasks ++ cs }).length →
              DecodeCtx (ctxAt (ts1.set p { ts1[p]?.getD default with
                subtasks := (ts1[p]?.getD default).subtasks ++ cs }) j) =
              .ok ⟨(fun k => if k ∈ cs then some p else pm k) j, j⟩ := by
            intro j hj
            rw [ctxAt_set_subtasks]
            simp only [List.length_set] at hj
            rw [hlen1] at hj
            exact hinvA j hj
          have := ih ⟨ts1.set p { ts1[p]?.getD default with
              subtasks := (ts1[p]?.getD default).subtasks ++ cs }⟩
            (fun k => if k ∈ cs then some p else pm k)
            (by simpa [List.length_set, hlen1] using hwf)
            (by simpa using hinv2) i hi
          simpa [List.length_set, hlen1] using this

/-- Claim C6: for every well-formed builder script run from an empty arena,
decoding any built task's own context succeeds and yields the entry whose
`task` field is that task and whose `parent` field is the most recent
attaching parent (absent for tasks never attached, i.e. roots); and decoding
any context that carries no binding for the key "ctx" (one never bound by
the builder) fails with the "no context found" error instead of succeeding
or crashing. -/
theorem C6_decode_context (ops : List BOp) (h : wfOps 0 ops = true) :
    (∀ i, i < (interp ⟨[]⟩ ops).tasks.length →
      DecodeCtx (ctxAt (interp ⟨[]⟩ ops).tasks i) =
        .ok ⟨ghostUpd 0 (fun _ => none) ops i, i⟩) ∧
    (∀ ctx : GoContext, ctx.value "ctx" = none →
      DecodeCtx ctx = .error "no context found") := by
  constructor
  · exact interp_decode ops ⟨[]⟩ (fun _ => none) h
      (by intro i hi; simp at hi)
  · intro ctx hc
    simp [DecodeCtx, hc]

/-- Builder script for the C6 witness: create two root tasks, then attach
task 1 as a subtask of task 0. -/
def c6ops : List BOp :=
  [.newTask .background, .newTask .background, .addSubtasks 0 [1]]

/-- Witness for C6: on the concrete script, decoding task 1's context gives
self 1 and parent 0, decoding task 0's context gives self 0 and no parent,
and decoding the raw background context fails. -/
theorem C6_decode_context_witness :
    DecodeCtx (ctxAt (interp ⟨[]⟩ c6ops).tasks 1) = .ok ⟨some 0, 1⟩ ∧
    DecodeCtx (ctxAt (interp ⟨[]⟩ c6ops).tasks 0) = .ok ⟨none, 0⟩ ∧
    DecodeCtx .background = .error "no context found" := by
  have h := C6_decode_context c6ops (by decide)
  refine ⟨?_, ?_, h.2 .background (by decide)⟩
  · have h1 := h.1 1 (by decide)
    have e : ghostUpd 0 (fun _ => none) c6ops 1 = some 0 := by decide
    rw [e] at h1
    exact h1
  · have h0 := h.1 0 (by decide)
    have e : ghostUpd 0 (fun _ => none) c6ops 0 = none := by decide
    rw [e] at h0
    exact h0

/-- State of the identity allocator machine: the shared atomic counter and,
for each in-flight `New` call, its program counter (0: has not executed
`counter.Load()` yet; 1: loaded, has not executed `counter.Add(1)` yet;
2: done) and the value its `counter.Load()` returned. -/
structure AState where
  counter : Nat
  pcs : List Nat
  regs : List (Option Nat)

/-- One atomic step of the `New` call with index `i` (part_000 lines
76-95): its first step is the `counter.Load()` feeding
`fmt.Sprintf("task_%d", ...)`, its second, separate atomic step is
`counter.Add(1)`; the work in between (config functions, context binding)
never touches the counter.  A step of a finished call changes nothing. -/
def stepNew (s : AState) (i : Nat) : AState :=
  match s.pcs.getD i 2 with
  | 0 => { s with regs := s.regs.set i (some s.counter), pcs := s.pcs.set i 1 }
  | 1 => { s with counter := s.counter + 1, pcs := s.pcs.set i 2 }
  | _ => s

/-- Run an interleaving schedule: each entry names the `New` call that
executes its next atomic step. -/
def runSched (s : AState) : List Nat → AState
  | [] => s
  | i :: r => runSched (stepNew s i) r

/-- Initial state for `k` concurrent `New` calls against the package's
process-wide counter, which starts at zero. -/
def initA (k : Nat) : AState := ⟨0, List.replicate k 0, List.replicate k none⟩

/-- The identifier the `New` call with index `i` produces:
`fmt.Sprintf("task_%d", loadedValue)`. -/
def taskIdAt (s : AState) (i : Nat) : String :=
  "task_" ++ toString ((s.regs.getD i none).getD 0)

/-- Claim C5 evaluated at the failing input: two concurrent `New` calls
interleaved as load, load, add, add both read counter value 0 and produce
the same identifier "task_0", because the code derives the identifier from
`counter.Load()` and only afterwards runs a separate `counter.Add(1)`.  The
counter itself is incremented exactly once per construction (it ends at 2),
and the non-interleaved schedule yields the distinct identifiers "task_0"
and "task_1" — the uniqueness part of the claim is exactly what the racy
load/add split breaks. -/
theorem C5_interleaved_duplicate_ids :
    taskIdAt (runSched (initA 2) [0, 1, 0, 1]) 0 = "task_0" ∧
    taskIdAt (runSched (initA 2) [0, 1, 0, 1]) 1 = "task_0" ∧
    (runSched (initA 2) [0, 1, 0, 1]).counter = 2 ∧
    taskIdAt (runSched (initA 2) [0, 0, 1, 1]) 0 = "task_0" ∧
    taskIdAt (runSched (initA 2) [0, 0, 1, 1]) 1 = "task_1" := by
  decide

/-- Embedding of what the part_000 `Run` loop does to the caller's task
slice (lines 225-228 and 243).  The caller's backing array is `arr`
(entries `none` once cleared); `off` is how many tasks the loop has already
dequeued from it.  Each iteration executes `tasks[0] = nil` (clearing the
caller's slot) before running the task.  The call sites all pass slice
literals, whose capacity equals their length, so after dequeuing, the
queue's length equals its remaining capacity and the first
`append(tasks, task.Subtasks...)` with a non-empty subtask list reallocates
the backing array: from then on the loop's writes no longer alias the
caller's array, which therefore keeps its value from that point on.  An
error return likewise stops the writes (the compensation pass never touches
the slice).  A `some none` entry would be a cleared slot reaching the
dequeue position, which never happens starting from a slice of tasks. -/
def runSliceAux {α : Type} (arr : List (Option (GTask α))) (off : Nat)
    (vs : List α) : List (Option (GTask α)) :=
  if _hlt : off < arr.length then
    match arr[off]?.getD none with
    | none => arr
    | some t =>
        match t.runF vs with
        | .error _ => arr.set off none
        | .ok v =>
            match t.subtasks with
            | [] => runSliceAux (arr.set off none) (off + 1) (vs ++ [v])
            | _ :: _ => arr.set off none
  else arr
termination_by arr.length - off
decreasing_by
  simp [List.length_set]
  omega

/-- The caller's task slice as `Run(tasks, values...)` of part_000 leaves
it: the backing array of the slice literal the caller passed in, after the
run. -/
def RunCallerSlice {α : Type} (tasks : List (GTask α)) (vs : List α) :
    List (Option (GTask α)) :=
  runSliceAux (tasks.map some) 0 vs

theorem runSliceAux_getElem_lt {α : Type} (n : Nat) :
    ∀ (arr : List (Option (GTask α))) (off : Nat) (vs : List α),
      arr.length - off ≤ n → ∀ j, j < off →
        (runSliceAux arr off vs)[j]? = arr[j]? := by
  induction n with
  | zero =>
      intro arr off vs hn j hj
      rw [runSliceAux, dif_neg (by omega)]
  | succ n ih =>
      intro arr off vs hn j hj
      by_cases hoff : off < arr.length
      · rw [runSliceAux, dif_pos hoff]
        have hset : (arr.set off none)[j]? = arr[j]? :=
          List.getElem?_set_ne (by omega)
        cases harr : arr[off]?.getD none with
        | none => rfl
        | some t =>
            cases hr : t.runF vs with
            | error e => simpa [hr] using hset
            | ok v =>
                cases hsub : t.subtasks with
                | nil =>
                    simp only [hr, hsub]
                    rw [ih (arr.set off none) (off + 1) (vs ++ [v])
                      (by simp [List.length_set]; omega) j (by omega)]
                    exact hset
                | cons a b => simpa [hr, hsub] using hset
      · rw [runSliceAux, dif_neg hoff]

theorem runSliceAux_all_none {α : Type} (n : Nat) :
    ∀ (arr : List (Option (GTask α))) (off : Nat) (vs : List α),
      arr.length - off ≤ n →
      (∀ j, j < off → arr[j]? = some none) →
      (∀ j, off ≤ j → j < arr.length → ∃ t : GTask α,
        arr[j]? = some (some t) ∧ t.subtasks = [] ∧
        ∀ ws : List α, ∃ v, t.runF ws = .ok v) →
      runSliceAux arr off vs = List.replicate arr.length none := by
  induction n with
  | zero =>
      intro arr off vs hn hlo _
      rw [runSliceAux, dif_neg (by omega)]
      refine List.ext_getElem? ?_
      intro i
      by_cases hi : i < arr.length
      · rw [hlo i (by omega), List.getElem?_replicate]
        simp [hi]
      · rw [List.getElem?_eq_none (by omega),
          List.getElem?_eq_none (by simp; omega)]
  | succ n ih =>
      intro arr off vs hn hlo hhi
      by_cases hoff : off < arr.length
      · obtain ⟨t, harr, hsub, hok⟩ := hhi off (Nat.le_refl _) hoff
        obtain ⟨v, hv⟩ := hok vs
        have hgd : arr[off]?.getD none = some t := by rw [harr]; rfl
        rw [runSliceAux, dif_pos hoff, hgd]
        simp only [hv, hsub]
        rw [ih (arr.set off none) (off + 1) (vs ++ [v])
          (by simp [List.length_set]; omega) ?_ ?_]
        · simp [List.length_set]
        · intro j hj
          by_cases hje : j = off
          · subst hje
            exact List.getElem?_set_eq_of_lt none hoff
          · rw [List.getElem?_set_ne (by omega)]
            exact hlo j (by omega)
        · intro j hj1 hj2
          rw [List.length_set] at hj2
          obtain ⟨u, hu1, hu2, hu3⟩ := hhi j (by omega) hj2
          exact ⟨u, by rw [List.getElem?_set_ne (by omega)]; exact hu1, hu2, hu3⟩
      · rw [runSliceAux, dif_neg hoff]
        refine List.ext_getElem? ?_
        intro i
        by_cases hi : i < arr.length
        · rw [hlo i (by omega), List.getElem?_replicate]
          simp [hi]
        · rw [List.getElem?_eq_none (by omega),
            List.getElem?_eq_none (by simp; omega)]

/-- Two root tasks for the C10 counterexample: A fails immediately, B would
succeed; neither has subtasks. -/
def fA : GTask Int := .mk "A" (fun _ => .error "fail") none []

def fB : GTask Int := .mk "B" (fun _ => .ok 2) none []

/-- Claim C10, as stated, is false: `Run` does overwrite dequeued slots of
the caller's slice with nil, but not every element.  With the caller slice
[A, B] where A's run fails, `Run` returns after clearing only slot 0: the
caller's slice is left as [nil, B], so its second element still references
task B. -/
theorem C10_counterexample :
    ((RunCallerSlice [fA, fB] ([] : List Int)).map
      (fun o => o.map GTask.id)) = [none, some "B"] ∧
    (RunGo [fA, fB] ([] : List Int)).outcome = .error "fail" := by
  constructor
  · simp [RunCallerSlice, runSliceAux, fA, fB, GTask.runF, GTask.subtasks,
      GTask.id]
  · simp [RunGo, runGoAux, revertGo, fA, fB, GTask.runF, GTask.subtasks,
      GTask.id, GTask.revertF]

/-- Claim C10 (amended): the sequential `Run` of part_000 mutates the
caller-supplied task slice by writing nil into each slot it dequeues while
its internal queue still aliases the caller's backing array.  The first
element of a non-empty slice is therefore always overwritten with nil; and
when every task in the slice is subtask-free and has a run function that
succeeds (so the queue never grows and never reallocates, and the loop
consumes the whole slice), every element of the caller's slice is
overwritten with nil.  In general — after an early error return, or once
appending some task's non-empty subtask list forces the queue to
reallocate — the remaining elements keep their original task pointers, so
not every invocation nils out the whole slice. -/
theorem C10_slice_clearing {α : Type} :
    (∀ (t : GTask α) (ts : List (GTask α)) (vs : List α),
      (RunCallerSlice (t :: ts) vs)[0]? = some none) ∧
    (∀ (tasks : List (GTask α)) (vs : List α),
      (∀ t ∈ tasks, t.subtasks = [] ∧ ∀ ws : List α, ∃ v, t.runF ws = .ok v) →
      RunCallerSlice tasks vs = List.replicate tasks.length none) := by
  constructor
  · intro t ts vs
    rw [RunCallerSlice, runSliceAux, dif_pos (by simp)]
    have hgd : ((t :: ts).map some)[0]?.getD none = some t := by
      simp
    rw [hgd]
    have hset0 : (((t :: ts).map some).set 0 none)[0]? = some none := by
      simp
    cases hr : t.runF vs with
    | error e => simp [hr]
    | ok v =>
        cases hsub : t.subtasks with
        | nil =>
            simp only [hr, hsub]
            rw [runSliceAux_getElem_lt (((t :: ts).map some).set 0 none).length
              _ _ _ (by omega) 0 (by omega)]
            exact hset0
        | cons a b => simp [hr, hsub]
  · intro tasks vs hflat
    have h := runSliceAux_all_none (tasks.map some).length (tasks.map some)
      0 vs (by omega) (by intro j hj; omega) ?_
    · simpa using h
    · intro j _ hj2
      simp only [List.length_map] at hj2
      have hje : (tasks.map some)[j]? = some (some (tasks.get ⟨j, hj2⟩)) := by
        simp [List.getElem?_map, List.getElem?_eq_getElem hj2]
      have hmem : tasks.get ⟨j, hj2⟩ ∈ tasks := List.get_mem tasks _ hj2
      obtain ⟨hsub, hok⟩ := hflat _ hmem
      exact ⟨tasks.get ⟨j, hj2⟩, hje, hsub, hok⟩

/-- Flat always-succeeding tasks for the C10 witness. -/
def wA : GTask Int := .mk "WA" (fun _ => .ok 1) none []

def wB : GTask Int := .mk "WB" (fun _ => .ok 2) none []

/-- Witness for C10: the amended theorem applied to a concrete single-task
slice (first slot cleared) and to the concrete flat slice [WA, WB] (every
slot cleared), discharging the subtask-free/success hypothesis there. -/
theorem C10_slice_clearing_witness :
    (RunCallerSlice [wA] ([] : List Int))[0]? = some none ∧
    RunCallerSlice [wA, wB] ([] : List Int) = List.replicate 2 none := by
  constructor
  · exact (@C10_slice_clearing Int).1 wA [] []
  · have h := (@C10_slice_clearing Int).2 [wA, wB] []
      (by
        intro t ht
        simp only [wA, wB, List.mem_cons, List.not_mem_nil, or_false] at ht
        rcases ht with h | h <;> subst h <;>
          exact ⟨rfl, fun ws => ⟨_, rfl⟩⟩)
    simpa using h

end Async
